import Mathlib

/-!
# Needleman-Wunsch distance (`needlemanwunsch.h`)

A shallow embedding of the function template `NeedlemanWunschDistance` and a
verification development about it.

* A forward range `[begin, end)` is a `List α`; the element comparison
  `*itr1 == *itr2` is the decidable equality of `α`.
* A `std::vector<size_t>` is a `Row` (a list of naturals).  Every indexed read
  and write goes through `Row.read` / `Row.write`, which return `none` when the
  index is outside the row, so a result `some n` also says that every access
  made on the way was inside the row.
* `size_t` values are natural numbers; the development bounds every value that
  is returned by `length one + length two`.
-/

namespace NeedlemanWunsch

/-! ## The rows -/

/-- A `std::vector<size_t>`. -/
abbrev Row := List Nat

/-- The constructor `std::vector<size_t> v(n)`: `n` value-initialised slots. -/
def Row.alloc (n : Nat) : Row := List.replicate n 0

/-- The read `v[i]`, failing outside the row. -/
def Row.read (r : Row) (i : Nat) : Option Nat := r.get? i

/-- The write `v[i] = x`, failing outside the row. -/
def Row.write (r : Row) (i x : Nat) : Option Row :=
  if i < r.length then some (r.set i x) else none

/-- The read `v.back()`, failing on an empty row. -/
def Row.back (r : Row) : Option Nat := r.getLast?

/-! ## The loops -/

/-- The base-case loop `for (size_t i = 0; i < match.size(); ++i) match[i] = i;`.
The first argument counts the iterations that are left, `match.size() - i`. -/
def baseLoop : Nat → Nat → Row → Option Row
  | 0, _, mtch => some mtch
  | k + 1, i, mtch => do
    let mtch ← mtch.write i i
    baseLoop k (i + 1) mtch

/-- The inner loop `for (itr2 = begin2; itr2 != end2; ++itr2, ++j)`, run on the
part of the second range that is still ahead of `itr2`, for the element `x`
that `itr1` points to. `mtch` is the row of the last round, `roundMatch` the
row being filled. -/
def innerLoop {α : Type} [DecidableEq α] (x : α) (mtch : Row) :
    List α → Nat → Row → Option Row
  | [], _, roundMatch => some roundMatch
  | y :: rest, j, roundMatch => do
    let left ← roundMatch.read (j - 1)
    let up ← mtch.read j
    let bestScore := 1 + min left up
    let bestScore ←
      if x = y then do
        let diag ← mtch.read (j - 1)
        pure (min bestScore diag)
      else pure bestScore
    let roundMatch ← roundMatch.write j bestScore
    innerLoop x mtch rest (j + 1) roundMatch

/-- The outer loop `for (itr1 = begin1; itr1 != end1; ++itr1, ++i)`, run on the
part of the first range that is still ahead of `itr1`. It returns the pair
`(match, roundMatch)` as it stands when the loop is left; the exchange
`match.swap(roundMatch)` is the exchange of the two arguments in the
recursive call. -/
def outerLoop {α : Type} [DecidableEq α] (two : List α) :
    List α → Nat → Row → Row → Option (Row × Row)
  | [], _, mtch, roundMatch => some (mtch, roundMatch)
  | x :: rest, i, mtch, roundMatch => do
    let roundMatch ← roundMatch.write 0 i
    let roundMatch ← innerLoop x mtch two 1 roundMatch
    outerLoop two rest (i + 1) roundMatch mtch

/-- The part of `NeedlemanWunschDistance` below the exchange of the operands
(lines 43 to 89): allocation of the two rows, base case, the two nested loops
and the read of `match.back()`. -/
def dpBody {α : Type} [DecidableEq α] (one two : List α) : Option Nat := do
  let twoSize := two.length
  let mtch := Row.alloc (twoSize + 1)
  let roundMatch := Row.alloc (twoSize + 1)
  let mtch ← baseLoop mtch.length 0 mtch
  let (mtch, _) ← outerLoop two one 1 mtch roundMatch
  mtch.back

/-- The function template `NeedlemanWunschDistance`: when the first range is
the shorter one it calls itself with the two ranges exchanged, otherwise it
runs the dynamic program. -/
def NeedlemanWunschDistance {α : Type} [DecidableEq α] (one two : List α) :
    Option Nat :=
  if _h : one.length < two.length then NeedlemanWunschDistance two one
  else dpBody one two
termination_by (if one.length < two.length then 1 else 0)
decreasing_by
  have h2 : ¬ two.length < one.length := Nat.lt_asymm _h
  simp [_h, h2]

/-! ## The reference recurrence and the notion of an edit script -/

/-- The recurrence of the inner loop read as a function of two lists, each list
standing for a prefix that has been consumed, last consumed element first:
`indel (x :: xs) ys` is `roundMatch[j - 1]`, `indel xs (y :: ys)` is `match[j]`
and `indel xs ys` is `match[j - 1]`; the two base cases are the base-case loop
and the assignment `roundMatch[0] = i`. -/
def indel {α : Type} [DecidableEq α] : List α → List α → Nat
  | [], ys => ys.length
  | x :: xs, [] => (x :: xs).length
  | x :: xs, y :: ys =>
    if x = y then min (1 + min (indel (x :: xs) ys) (indel xs (y :: ys))) (indel xs ys)
    else 1 + min (indel (x :: xs) ys) (indel xs (y :: ys))
termination_by xs ys => xs.length + ys.length

/-- The contents of the row `match` once the elements of `p` (last consumed
first) have been processed by the outer loop: slot `j` holds the value of the
recurrence for `p` against the first `j` elements of `two`. -/
def rowOf {α : Type} [DecidableEq α] (p two : List α) : Row :=
  (List.range (two.length + 1)).map (fun j => indel p (two.take j).reverse)

/-- One insertion or one deletion of a single element, at any position. -/
inductive InsDelStep {α : Type} : List α → List α → Prop
  | insert (l r : List α) (x : α) : InsDelStep (l ++ r) (l ++ x :: r)
  | delete (l r : List α) (x : α) : InsDelStep (l ++ x :: r) (l ++ r)

/-- One edit in the sense of the specification's glossary: an insertion, a
deletion, or the substitution of one element by a different one. -/
inductive EditStep {α : Type} : List α → List α → Prop
  | insert (l r : List α) (x : α) : EditStep (l ++ r) (l ++ x :: r)
  | delete (l r : List α) (x : α) : EditStep (l ++ x :: r) (l ++ r)
  | substitute (l r : List α) (x y : α) (h : x ≠ y) : EditStep (l ++ x :: r) (l ++ y :: r)

/-- The sequence `a` is transformed into `c` by exactly `n` steps of `R`. -/
inductive StepsIn {α : Type} (R : List α → List α → Prop) : Nat → List α → List α → Prop
  | done (a : List α) : StepsIn R 0 a a
  | next {n : Nat} {a b c : List α} : R a b → StepsIn R n b c → StepsIn R (n + 1) a c

/-- The number `n` is the minimum number of steps of `R` that transform `a`
into `b`: some script has `n` steps and none has fewer. -/
def IsMinSteps {α : Type} (R : List α → List α → Prop) (a b : List α) (n : Nat) : Prop :=
  StepsIn R n a b ∧ ∀ m, StepsIn R m a b → n ≤ m

/-! ## Intermediate states, the operand order and the depth of the recursion -/

/-- The pair `(match, roundMatch)` of the dynamic program run on `one` and
`two`, after the allocation, the base-case loop and the first `i` iterations of
the outer loop (lines 43 to 84, the outer loop stopped after `i` rounds). -/
def rowsAfter {α : Type} [DecidableEq α] (one two : List α) (i : Nat) :
    Option (Row × Row) := do
  let twoSize := two.length
  let mtch := Row.alloc (twoSize + 1)
  let roundMatch := Row.alloc (twoSize + 1)
  let mtch ← baseLoop mtch.length 0 mtch
  outerLoop two (one.take i) 1 mtch roundMatch

/-- The ranges on which the dynamic program is run by the call
`NeedlemanWunschDistance A B`: the test `oneSize < twoSize` of line 37 passes
the two ranges on exchanged, otherwise they are kept. The first component is
the operand of the outer loop, the second that of the inner loop and of the
row allocation. -/
def operands {α : Type} (A B : List α) : List α × List α :=
  if A.length < B.length then (B, A) else (A, B)

/-- The function `NeedlemanWunschDistance` with a record of its self-calls.
The first argument bounds the number of nested activations; the result is
`none` when that bound is exhausted, otherwise the value returned together
with the argument pairs of the self-calls made, outermost first. -/
def tracedDistance {α : Type} [DecidableEq α] :
    Nat → List α → List α → Option (Option Nat × List (List α × List α))
  | 0, _, _ => none
  | depth + 1, one, two =>
    if one.length < two.length then
      (tracedDistance depth two one).map (fun res => (res.1, (two, one) :: res.2))
    else some (dpBody one two, [])

/-! ## The full table and the longest common subsequence, as the specification words them -/

/-- The test `L[i] = S[j]` of the full-table recurrence, positions counted
from 1 as in the specification; it fails when a position is outside its
sequence. -/
def sameAt {α : Type} [DecidableEq α] (L S : List α) (i j : Nat) : Bool :=
  match L.get? (i - 1), S.get? (j - 1) with
  | some x, some y => decide (x = y)
  | _, _ => false

/-- The full-table recurrence of the specification: `D(0, j) = j`,
`D(i, 0) = i`, and for `i, j ≥ 1` the value
`min(1 + min(D(i, j-1), D(i-1, j)), D(i-1, j-1))` when `L[i] = S[j]` and
`1 + min(D(i, j-1), D(i-1, j))` otherwise. -/
def tableD {α : Type} [DecidableEq α] (L S : List α) : Nat → Nat → Nat
  | 0, j => j
  | i + 1, 0 => i + 1
  | i + 1, j + 1 =>
    if sameAt L S (i + 1) (j + 1) then
      min (1 + min (tableD L S (i + 1) j) (tableD L S i (j + 1))) (tableD L S i j)
    else 1 + min (tableD L S (i + 1) j) (tableD L S i (j + 1))
termination_by i j => (i, j)

/-- The number `k` is the length of a longest common subsequence of `A` and
`B`: some common subsequence has `k` elements and none has more. -/
def IsLCSLength {α : Type} (A B : List α) (k : Nat) : Prop :=
  (∃ s : List α, s.Sublist A ∧ s.Sublist B ∧ s.length = k) ∧
    ∀ s : List α, s.Sublist A → s.Sublist B → s.length ≤ k

/-! ## Edit scripts -/

theorem InsDelStep.cons {α : Type} (x : α) {a b : List α} (h : InsDelStep a b) :
    InsDelStep (x :: a) (x :: b) := by
  cases h with
  | insert l r y => exact InsDelStep.insert (x :: l) r y
  | delete l r y => exact InsDelStep.delete (x :: l) r y

theorem InsDelStep.symm {α : Type} {a b : List α} (h : InsDelStep a b) : InsDelStep b a := by
  cases h with
  | insert l r y => exact InsDelStep.delete l r y
  | delete l r y => exact InsDelStep.insert l r y

theorem StepsIn.append {α : Type} {R : List α → List α → Prop} {n m : Nat} {a b c : List α}
    (h1 : StepsIn R n a b) (h2 : StepsIn R m b c) : StepsIn R (n + m) a c := by
  induction h1 with
  | done a => simpa using h2
  | next hr _ ih =>
    have := StepsIn.next hr (ih h2)
    rwa [Nat.add_right_comm]

theorem StepsIn.cons_insDel {α : Type} (x : α) {n : Nat} {a b : List α} (h : StepsIn InsDelStep n a b) :
    StepsIn InsDelStep n (x :: a) (x :: b) := by
  induction h with
  | done a => exact StepsIn.done _
  | next hr _ ih => exact StepsIn.next (hr.cons x) ih

theorem StepsIn.symm_insDel {α : Type} {n : Nat} {a b : List α} (h : StepsIn InsDelStep n a b) :
    StepsIn InsDelStep n b a := by
  induction h with
  | done a => exact StepsIn.done _
  | next hr _ ih => exact ih.append (StepsIn.next hr.symm (StepsIn.done _))

theorem stepsIn_of_sublist {α : Type} {s a : List α} (h : s.Sublist a) :
    StepsIn InsDelStep (a.length - s.length) a s := by
  induction h with
  | slnil => exact StepsIn.done _
  | cons x hsub ih =>
    rename_i s' a'
    have hle := hsub.length_le
    have e : (x :: a').length - s'.length = (a'.length - s'.length) + 1 := by
      simp only [List.length_cons]; omega
    rw [e]
    exact StepsIn.next (InsDelStep.delete [] a' x) ih
  | cons₂ x _ ih =>
    simp only [List.length_cons, Nat.add_sub_add_right]
    exact ih.cons_insDel x

theorem sublist_meet {α : Type} (b : List α) : ∀ s t : List α, s.Sublist b → t.Sublist b →
    ∃ u : List α, u.Sublist s ∧ u.Sublist t ∧ s.length + t.length ≤ u.length + b.length := by
  induction b with
  | nil =>
    intro s t hs ht
    have hs0 : s = [] := List.sublist_nil.mp hs
    have ht0 : t = [] := List.sublist_nil.mp ht
    subst hs0; subst ht0
    exact ⟨[], List.Sublist.refl _, List.Sublist.refl _, by simp⟩
  | cons x b ih =>
    intro s t hs ht
    cases hs with
    | cons _ hs' =>
      cases ht with
      | cons _ ht' =>
        obtain ⟨u, h1, h2, h3⟩ := ih s t hs' ht'
        exact ⟨u, h1, h2, by simp only [List.length_cons]; omega⟩
      | cons₂ _ ht' =>
        rename_i t'
        obtain ⟨u, h1, h2, h3⟩ := ih s t' hs' ht'
        exact ⟨u, h1, List.Sublist.cons x h2, by simp only [List.length_cons]; omega⟩
    | cons₂ _ hs' =>
      rename_i s'
      cases ht with
      | cons _ ht' =>
        obtain ⟨u, h1, h2, h3⟩ := ih s' t hs' ht'
        exact ⟨u, List.Sublist.cons x h1, h2, by simp only [List.length_cons]; omega⟩
      | cons₂ _ ht' =>
        rename_i t'
        obtain ⟨u, h1, h2, h3⟩ := ih s' t' hs' ht'
        exact ⟨x :: u, List.Sublist.cons₂ x h1, List.Sublist.cons₂ x h2,
          by simp only [List.length_cons]; omega⟩

variable {α : Type} [DecidableEq α]

/-! ## The recurrence -/

theorem indel_nil_left (ys : List α) : indel [] ys = ys.length := by
  rw [indel]

theorem indel_nil_right (xs : List α) : indel xs [] = xs.length := by
  cases xs <;> simp [indel]

theorem indel_cons_cons (x y : α) (xs ys : List α) :
    indel (x :: xs) (y :: ys) =
      if x = y then min (1 + min (indel (x :: xs) ys) (indel xs (y :: ys))) (indel xs ys)
      else 1 + min (indel (x :: xs) ys) (indel xs (y :: ys)) := by
  rw [indel]

theorem indel_cons_cons_le_left (x y : α) (xs ys : List α) :
    indel (x :: xs) (y :: ys) ≤ 1 + indel xs (y :: ys) := by
  rw [indel_cons_cons]; split <;> omega

theorem indel_cons_cons_le_right (x y : α) (xs ys : List α) :
    indel (x :: xs) (y :: ys) ≤ 1 + indel (x :: xs) ys := by
  rw [indel_cons_cons]; split <;> omega

theorem indel_cons_cons_le_diag (x : α) (xs ys : List α) :
    indel (x :: xs) (x :: ys) ≤ indel xs ys := by
  rw [indel_cons_cons]; simp

theorem indel_add_le (a : List α) : ∀ (b s : List α), s.Sublist a → s.Sublist b →
    indel a b + 2 * s.length ≤ a.length + b.length := by
  induction a with
  | nil =>
    intro b s ha _
    have : s = [] := List.sublist_nil.mp ha
    subst this
    simp [indel_nil_left]
  | cons x xs iha =>
    intro b
    induction b with
    | nil =>
      intro s _ hb
      have : s = [] := List.sublist_nil.mp hb
      subst this
      simp [indel_nil_right]
    | cons y ys ihb =>
      intro s ha hb
      cases ha with
      | cons _ ha' =>
        have h1 := iha (y :: ys) s ha' hb
        have h2 := indel_cons_cons_le_left x y xs ys
        simp only [List.length_cons] at *
        omega
      | cons₂ _ ha' =>
        rename_i s'
        cases hb with
        | cons _ hb' =>
          have h1 := ihb (x :: s') (List.Sublist.cons₂ x ha') hb'
          have h2 := indel_cons_cons_le_right x y xs ys
          simp only [List.length_cons] at *
          omega
        | cons₂ _ hb' =>
          have h1 := iha ys s' ha' hb'
          have h2 := indel_cons_cons_le_diag x xs ys
          simp only [List.length_cons] at *
          omega

theorem indel_exists_common (a : List α) : ∀ b : List α, ∃ s : List α,
    s.Sublist a ∧ s.Sublist b ∧ indel a b + 2 * s.length = a.length + b.length := by
  induction a with
  | nil =>
    intro b
    exact ⟨[], List.Sublist.refl _, List.nil_sublist _, by simp [indel_nil_left]⟩
  | cons x xs iha =>
    intro b
    induction b with
    | nil => exact ⟨[], List.nil_sublist _, List.Sublist.refl _, by simp [indel_nil_right]⟩
    | cons y ys ihb =>
      have hcases : indel (x :: xs) (y :: ys) = 1 + indel (x :: xs) ys ∨
          indel (x :: xs) (y :: ys) = 1 + indel xs (y :: ys) ∨
          (x = y ∧ indel (x :: xs) (y :: ys) = indel xs ys) := by
        rw [indel_cons_cons]
        split
        · rename_i h
          simp only [h, true_and]
          omega
        · omega
      rcases hcases with h | h | ⟨hxy, h⟩
      · obtain ⟨s, h1, h2, h3⟩ := ihb
        refine ⟨s, h1, List.Sublist.cons y h2, ?_⟩
        simp only [List.length_cons] at *
        omega
      · obtain ⟨s, h1, h2, h3⟩ := iha (y :: ys)
        refine ⟨s, List.Sublist.cons x h1, h2, ?_⟩
        simp only [List.length_cons] at *
        omega
      · obtain ⟨s, h1, h2, h3⟩ := iha ys
        subst hxy
        refine ⟨x :: s, List.Sublist.cons₂ x h1, List.Sublist.cons₂ x h2, ?_⟩
        simp only [List.length_cons] at *
        omega


theorem indel_reverse_le (a b : List α) : indel a.reverse b.reverse ≤ indel a b := by
  obtain ⟨s, h1, h2, h3⟩ := indel_exists_common a b
  have := indel_add_le a.reverse b.reverse s.reverse (List.reverse_sublist.mpr h1)
    (List.reverse_sublist.mpr h2)
  simp only [List.length_reverse] at this
  omega

theorem indel_reverse (a b : List α) : indel a.reverse b.reverse = indel a b := by
  apply Nat.le_antisymm (indel_reverse_le a b)
  have := indel_reverse_le a.reverse b.reverse
  simpa only [List.reverse_reverse] using this

theorem indel_comm_le (a b : List α) : indel a b ≤ indel b a := by
  obtain ⟨s, h1, h2, h3⟩ := indel_exists_common b a
  have := indel_add_le a b s h2 h1
  omega

theorem indel_comm (a b : List α) : indel a b = indel b a :=
  Nat.le_antisymm (indel_comm_le a b) (indel_comm_le b a)

theorem indel_self (a : List α) : indel a a = 0 := by
  have := indel_add_le a a a (List.Sublist.refl a) (List.Sublist.refl a)
  omega

theorem indel_le_add (a b : List α) : indel a b ≤ a.length + b.length := by
  obtain ⟨s, _, _, h3⟩ := indel_exists_common a b
  omega

theorem indel_triangle (a b c : List α) : indel a c ≤ indel a b + indel b c := by
  obtain ⟨s, hsa, hsb, hs⟩ := indel_exists_common a b
  obtain ⟨t, htb, htc, ht⟩ := indel_exists_common b c
  obtain ⟨u, hus, hut, hu⟩ := sublist_meet b s t hsb htb
  have := indel_add_le a c u (hus.trans hsa) (hut.trans htc)
  omega

theorem indel_insert (l r : List α) (x : α) : indel (l ++ r) (l ++ x :: r) = 1 := by
  have hsub : (l ++ r).Sublist (l ++ x :: r) :=
    List.Sublist.append (List.Sublist.refl l) (List.Sublist.cons x (List.Sublist.refl r))
  have h1 := indel_add_le (l ++ r) (l ++ x :: r) (l ++ r) (List.Sublist.refl _) hsub
  obtain ⟨s, _, _, h3⟩ := indel_exists_common (l ++ r) (l ++ x :: r)
  simp only [List.length_append, List.length_cons] at *
  omega

theorem indel_delete (l r : List α) (x : α) : indel (l ++ x :: r) (l ++ r) = 1 := by
  rw [indel_comm]; exact indel_insert l r x

theorem indel_substitute (l r : List α) (x y : α) (h : x ≠ y) :
    indel (l ++ x :: r) (l ++ y :: r) = 2 := by
  have hx : (l ++ r).Sublist (l ++ x :: r) :=
    List.Sublist.append (List.Sublist.refl l) (List.Sublist.cons x (List.Sublist.refl r))
  have hy : (l ++ r).Sublist (l ++ y :: r) :=
    List.Sublist.append (List.Sublist.refl l) (List.Sublist.cons y (List.Sublist.refl r))
  have h1 := indel_add_le (l ++ x :: r) (l ++ y :: r) (l ++ r) hx hy
  obtain ⟨s, hs1, hs2, h3⟩ := indel_exists_common (l ++ x :: r) (l ++ y :: r)
  by_cases hfull : s.length = (l ++ x :: r).length
  · exfalso
    have e1 : s = l ++ x :: r := hs1.eq_of_length hfull
    have e2 : s = l ++ y :: r := hs2.eq_of_length (by simpa using hfull)
    have e3 := List.append_cancel_left (e1.symm.trans e2)
    exact h (List.cons.inj e3).1
  · have := hs1.length_le
    simp only [List.length_append, List.length_cons] at *
    omega

theorem stepsIn_indel (a b : List α) : StepsIn InsDelStep (indel a b) a b := by
  obtain ⟨s, h1, h2, h3⟩ := indel_exists_common a b
  have p1 := stepsIn_of_sublist h1
  have p2 := (stepsIn_of_sublist h2).symm_insDel
  have e : indel a b = (a.length - s.length) + (b.length - s.length) := by
    have := h1.length_le
    have := h2.length_le
    omega
  rw [e]
  exact p1.append p2

theorem indel_step_le (a b : List α) (h : InsDelStep a b) : indel a b ≤ 1 := by
  cases h with
  | insert l r x => exact (indel_insert l r x).le
  | delete l r x => exact (indel_delete l r x).le

theorem indel_le_of_stepsIn {n : Nat} {a b : List α} (h : StepsIn InsDelStep n a b) :
    indel a b ≤ n := by
  induction h with
  | done a => simp [indel_self]
  | @next n a b c hr _ ih =>
    have h1 := indel_step_le a b hr
    have h2 := indel_triangle a b c
    omega

theorem isMinSteps_indel (a b : List α) : IsMinSteps InsDelStep a b (indel a b) :=
  ⟨stepsIn_indel a b, fun _ h => indel_le_of_stepsIn h⟩

/-! ## The loops compute the recurrence -/

theorem rowOf_length (p two : List α) : (rowOf p two).length = two.length + 1 := by
  simp [rowOf]

theorem rowOf_get (p two : List α) (k : Nat) (hk : k ≤ two.length) :
    (rowOf p two)[k]? = some (indel p (two.take k).reverse) := by
  have : k < two.length + 1 := by omega
  simp [rowOf, List.getElem?_range this]

theorem row_eq_rowOf (p two : List α) (r : Row) (hlen : r.length = two.length + 1)
    (h : ∀ k, k ≤ two.length → r[k]? = some (indel p (two.take k).reverse)) :
    r = rowOf p two := by
  apply List.ext_getElem?
  intro k
  by_cases hk : k ≤ two.length
  · rw [h k hk, rowOf_get p two k hk]
  · have h1 : r.length ≤ k := by omega
    have h2 : (rowOf p two).length ≤ k := by rw [rowOf_length]; omega
    rw [List.getElem?_eq_none h1, List.getElem?_eq_none h2]

theorem innerLoop_spec (x : α) (p two : List α) :
    ∀ (ys : List α) (j : Nat) (round : Row),
      ys = two.drop j → round.length = two.length + 1 →
      (∀ k, k ≤ j → round[k]? = some (indel (x :: p) (two.take k).reverse)) →
      innerLoop x (rowOf p two) ys (j + 1) round = some (rowOf (x :: p) two) := by
  intro ys
  induction ys with
  | nil =>
    intro j round hys hlen hinv
    have hj : two.length ≤ j := by
      have := congrArg List.length hys
      simp at this
      omega
    simp only [innerLoop]
    congr 1
    exact row_eq_rowOf _ _ _ hlen (fun k hk => hinv k (by omega))
  | cons y rest ih =>
    intro j round hys hlen hinv
    have hj : j < two.length := by
      have := congrArg List.length hys
      simp at this
      omega
    have hdrop : two.drop j = two[j] :: two.drop (j + 1) := List.drop_eq_getElem_cons hj
    rw [hdrop] at hys
    have hy : y = two[j] := (List.cons.inj hys).1
    have hrest : rest = two.drop (j + 1) := (List.cons.inj hys).2
    have htake : (two.take (j + 1)).reverse = y :: (two.take j).reverse := by
      rw [List.take_succ, List.getElem?_eq_getElem hj, hy]
      simp
    have hleft := hinv j (Nat.le_refl j)
    have hup := rowOf_get p two (j + 1) (by omega)
    have hdiag := rowOf_get p two j (by omega)
    rw [htake] at hup
    have hstep : ∀ v, round.write (j + 1) v = some (round.set (j + 1) v) := by
      intro v
      simp [Row.write, hlen, hj]
    have hnext : ∀ v, v = indel (x :: p) (y :: (two.take j).reverse) →
        innerLoop x (rowOf p two) rest (j + 1 + 1) (round.set (j + 1) v)
          = some (rowOf (x :: p) two) := by
      intro v hv
      apply ih (j + 1) _ hrest (by simp [hlen])
      intro k hk
      by_cases hkj : k = j + 1
      · subst hkj
        rw [List.getElem?_set_self (by omega), htake, hv]
      · rw [List.getElem?_set_ne (by omega)]
        exact hinv k (by omega)
    simp only [innerLoop, Row.read, List.get?_eq_getElem?, Nat.add_sub_cancel, hleft, hup,
      hdiag, Option.bind_eq_bind, Option.some_bind]
    by_cases hxy : x = y
    · rw [if_pos hxy]
      simp only [Option.some_bind, hstep, pure]
      apply hnext
      rw [indel_cons_cons, if_pos hxy]
    · rw [if_neg hxy]
      simp only [Option.some_bind, hstep, pure]
      apply hnext
      rw [indel_cons_cons, if_neg hxy]


theorem outerLoop_spec (two : List α) :
    ∀ (xs p : List α) (i : Nat) (r : Row),
      i = p.length + 1 → r.length = two.length + 1 →
      ∃ r', r'.length = two.length + 1 ∧
        outerLoop two xs i (rowOf p two) r = some (rowOf (xs.reverse ++ p) two, r') := by
  intro xs
  induction xs with
  | nil =>
    intro p i r _ hlen
    exact ⟨r, hlen, by simp [outerLoop]⟩
  | cons x rest ih =>
    intro p i r hi hlen
    have hw : r.write 0 i = some (r.set 0 i) := by simp [Row.write, hlen]
    have hin : innerLoop x (rowOf p two) two (0 + 1) (r.set 0 i) = some (rowOf (x :: p) two) := by
      apply innerLoop_spec x p two two 0 _ (by simp) (by simp [hlen])
      intro k hk
      have hk0 : k = 0 := by omega
      subst hk0
      rw [List.getElem?_set_self (by omega)]
      simp [indel_nil_right, hi]
    obtain ⟨r', hr', hrec⟩ := ih (x :: p) (i + 1) (rowOf p two) (by simp [hi]) (rowOf_length p two)
    refine ⟨r', hr', ?_⟩
    simp only [Nat.zero_add] at hin
    simp only [outerLoop, hw, hin, Option.bind_eq_bind, Option.some_bind, hrec]
    simp

theorem baseLoop_spec : ∀ (k i : Nat),
    baseLoop k i (List.range i ++ List.replicate k 0) = some (List.range (i + k)) := by
  intro k
  induction k with
  | zero => intro i; simp [baseLoop]
  | succ k ih =>
    intro i
    have hw : Row.write (List.range i ++ List.replicate (k + 1) 0) i i
        = some (List.range (i + 1) ++ List.replicate k 0) := by
      simp [Row.write, List.replicate_succ, List.range_succ]
    simp only [baseLoop, hw, Option.bind_eq_bind, Option.some_bind, ih (i + 1)]
    congr 2
    omega

theorem rowOf_nil (two : List α) : rowOf [] two = List.range (two.length + 1) := by
  unfold rowOf
  conv_rhs => rw [← List.map_id (List.range (two.length + 1))]
  apply List.map_congr_left
  intro j hj
  have : j < two.length + 1 := List.mem_range.mp hj
  simp [indel_nil_left]
  omega

theorem rowOf_back (p two : List α) :
    Row.back (rowOf p two) = some (indel p two.reverse) := by
  unfold Row.back
  rw [List.getLast?_eq_getElem?, rowOf_length, Nat.add_sub_cancel,
    rowOf_get p two two.length (Nat.le_refl _), List.take_length]

theorem dpBody_eq_rev (one two : List α) :
    dpBody one two = some (indel one.reverse two.reverse) := by
  have hbase : baseLoop (Row.alloc (two.length + 1)).length 0 (Row.alloc (two.length + 1))
      = some (rowOf [] two) := by
    have := baseLoop_spec (two.length + 1) 0
    simp only [List.range_zero, List.nil_append, Nat.zero_add] at this
    simp only [Row.alloc, List.length_replicate, this, rowOf_nil]
  obtain ⟨r', _, hout⟩ := outerLoop_spec two one [] 1 (Row.alloc (two.length + 1)) rfl
    (by simp [Row.alloc])
  simp only [dpBody, hbase, hout, Option.bind_eq_bind, Option.some_bind, List.append_nil]
  exact rowOf_back _ _


theorem dpBody_eq (one two : List α) : dpBody one two = some (indel one two) := by
  rw [dpBody_eq_rev, indel_reverse]

theorem NeedlemanWunschDistance_unfold (one two : List α) :
    NeedlemanWunschDistance one two =
      if one.length < two.length then dpBody two one else dpBody one two := by
  rw [NeedlemanWunschDistance]
  split
  · rename_i h
    rw [NeedlemanWunschDistance]
    simp [Nat.lt_asymm h]
  · rfl

theorem NeedlemanWunschDistance_eq (one two : List α) :
    NeedlemanWunschDistance one two = some (indel one two) := by
  rw [NeedlemanWunschDistance_unfold]
  split
  · rw [dpBody_eq, indel_comm]
  · rw [dpBody_eq]

/-! ## Intermediate states of the dynamic program -/

theorem outerLoop_append (two : List α) :
    ∀ (xs ys : List α) (i : Nat) (m r : Row),
      outerLoop two (xs ++ ys) i m r =
        (outerLoop two xs i m r).bind
          (fun s => outerLoop two ys (i + xs.length) s.1 s.2) := by
  intro xs
  induction xs with
  | nil => intro ys i m r; simp [outerLoop]
  | cons x rest ih =>
    intro ys i m r
    simp only [List.cons_append, outerLoop, Option.bind_eq_bind, List.length_cons]
    cases h1 : r.write 0 i with
    | none => simp
    | some r1 =>
      simp only [Option.some_bind]
      cases h2 : innerLoop x m two 1 r1 with
      | none => simp
      | some r2 =>
        simp only [Option.some_bind]
        rw [show rest.append ys = rest ++ ys from rfl, ih ys (i + 1) r2 m]
        have e : i + 1 + rest.length = i + (rest.length + 1) := by omega
        rw [e]

theorem dpBody_factors (one two : List α) (i : Nat) :
    dpBody one two =
      (rowsAfter one two i).bind
        (fun s => (outerLoop two (one.drop i) (1 + (one.take i).length) s.1 s.2).bind
          (fun t => t.1.back)) := by
  unfold dpBody rowsAfter
  simp only [Option.bind_eq_bind]
  cases h : baseLoop (Row.alloc (two.length + 1)).length 0 (Row.alloc (two.length + 1)) with
  | none => simp
  | some m0 =>
    simp only [Option.some_bind]
    conv_lhs => rw [← List.take_append_drop i one, outerLoop_append]
    simp only [Option.bind_assoc]

theorem baseLoop_alloc (two : List α) :
    baseLoop (Row.alloc (two.length + 1)).length 0 (Row.alloc (two.length + 1))
      = some (rowOf [] two) := by
  have := baseLoop_spec (two.length + 1) 0
  simp only [List.range_zero, List.nil_append, Nat.zero_add] at this
  simp only [Row.alloc, List.length_replicate, this, rowOf_nil]

theorem rowsAfter_spec (one two : List α) (i : Nat) :
    ∃ r : Row, r.length = two.length + 1 ∧
      rowsAfter one two i = some (rowOf (one.take i).reverse two, r) := by
  obtain ⟨r, hr, hout⟩ := outerLoop_spec two (one.take i) [] 1 (Row.alloc (two.length + 1)) rfl
    (by simp [Row.alloc])
  refine ⟨r, hr, ?_⟩
  simp only [rowsAfter, baseLoop_alloc, hout, Option.bind_eq_bind, Option.some_bind,
    List.append_nil]

theorem NeedlemanWunschDistance_operands (A B : List α) :
    NeedlemanWunschDistance A B = dpBody (operands A B).1 (operands A B).2 := by
  rw [NeedlemanWunschDistance_unfold]
  unfold operands
  split <;> rfl

theorem operands_snd_length {α : Type} (A B : List α) :
    (operands A B).2.length = min A.length B.length := by
  unfold operands
  split
  · rename_i h; simp only []; omega
  · rename_i h; simp only []; omega

theorem operands_fst_length {α : Type} (A B : List α) :
    (operands A B).1.length = max A.length B.length := by
  unfold operands
  split
  · rename_i h; simp only []; omega
  · rename_i h; simp only []; omega

theorem innerLoop_short_row :
    innerLoop 'a' [0, 1] ['a'] 1 [1] = none ∧ innerLoop 'a' [0] ['b'] 1 [1, 0] = none := by
  constructor <;> decide

/-! ## Further facts about the recurrence -/

theorem indel_cons_same (x : α) (a b : List α) : indel (x :: a) (x :: b) = indel a b := by
  apply Nat.le_antisymm (indel_cons_cons_le_diag x a b)
  obtain ⟨s, h1, h2, h3⟩ := indel_exists_common (x :: a) (x :: b)
  have t1 : s.tail.Sublist a := by simpa using h1.tail
  have t2 : s.tail.Sublist b := by simpa using h2.tail
  have h4 := indel_add_le a b s.tail t1 t2
  have h5 : s.length ≤ s.tail.length + 1 := by
    cases s <;> simp
  simp only [List.length_cons] at h3
  omega

theorem indel_append_same (x : α) (a b : List α) :
    indel (a ++ [x]) (b ++ [x]) = indel a b := by
  rw [← indel_reverse (a ++ [x]) (b ++ [x]), List.reverse_append, List.reverse_append]
  simp only [List.reverse_singleton, List.singleton_append]
  rw [indel_cons_same, indel_reverse]

theorem eq_of_indel_eq_zero (a b : List α) (h : indel a b = 0) : a = b := by
  obtain ⟨s, h1, h2, h3⟩ := indel_exists_common a b
  have l1 := h1.length_le
  have l2 := h2.length_le
  have e1 : s = a := h1.eq_of_length (by omega)
  have e2 : s = b := h2.eq_of_length (by omega)
  exact e1.symm.trans e2

theorem isLCSLength_indel (a b : List α) :
    ∃ k, IsLCSLength a b k ∧ indel a b + 2 * k = a.length + b.length := by
  obtain ⟨s, h1, h2, h3⟩ := indel_exists_common a b
  refine ⟨s.length, ⟨⟨s, h1, h2, rfl⟩, ?_⟩, h3⟩
  intro t ht1 ht2
  have := indel_add_le a b t ht1 ht2
  omega

theorem sameAt_succ (L S : List α) (i j : Nat) (hi : i < L.length) (hj : j < S.length) :
    sameAt L S (i + 1) (j + 1) = decide (L[i] = S[j]) := by
  simp [sameAt, List.getElem?_eq_getElem hi, List.getElem?_eq_getElem hj]

theorem reverse_take_succ {α : Type} (L : List α) (i : Nat) (hi : i < L.length) :
    (L.take (i + 1)).reverse = L[i] :: (L.take i).reverse := by
  rw [List.take_succ, List.getElem?_eq_getElem hi]
  simp

theorem tableD_eq_indel (L S : List α) : ∀ i j : Nat, i ≤ L.length → j ≤ S.length →
    tableD L S i j = indel (L.take i).reverse (S.take j).reverse := by
  intro i
  induction i with
  | zero =>
    intro j _ hj
    rw [tableD]
    simp [indel_nil_left, hj]
  | succ i ihi =>
    intro j
    induction j with
    | zero =>
      intro hi _
      rw [tableD]
      simp only [List.take_zero, List.reverse_nil, indel_nil_right, List.length_reverse,
        List.length_take]
      omega
    | succ j ihj =>
      intro hi hj
      have hi' : i < L.length := by omega
      have hj' : j < S.length := by omega
      rw [tableD, sameAt_succ L S i j hi' hj', ihj hi (by omega), ihi (j + 1) (by omega) hj,
        ihi j (by omega) (by omega), reverse_take_succ L i hi', reverse_take_succ S j hj',
        indel_cons_cons]
      by_cases h : L[i] = S[j] <;> simp [h]

theorem tracedDistance_succ_succ (depth : Nat) (A B : List α) :
    tracedDistance (depth + 2) A B =
      some (NeedlemanWunschDistance A B, if A.length < B.length then [(B, A)] else []) := by
  rw [NeedlemanWunschDistance_unfold]
  by_cases h : A.length < B.length
  · have h2 : ¬ B.length < A.length := Nat.lt_asymm h
    simp [tracedDistance, h, h2]
  · simp [tracedDistance, h]

theorem tracedDistance_one (A B : List α) (h : B.length ≤ A.length) :
    tracedDistance 1 A B = some (dpBody A B, []) := by
  have h2 : ¬ A.length < B.length := by omega
  simp [tracedDistance, h2]

/-! ## The contract of `NeedlemanWunschDistance` -/

/-- C1, as stated, fails: on the one-element sequences `a` and `b` the function
returns 2, while a single substitution transforms the first into the second,
so the value returned is not the minimum number of insertions, deletions or
substitutions. -/
theorem edit_distance_counterexample :
    ∃ n, NeedlemanWunschDistance ['a'] ['b'] = some n ∧
      ¬ IsMinSteps EditStep ['a'] ['b'] n := by
  refine ⟨2, by rw [NeedlemanWunschDistance_unfold]; decide, ?_⟩
  intro h
  have h1 : StepsIn EditStep 1 ['a'] ['b'] :=
    StepsIn.next (EditStep.substitute [] [] 'a' 'b' (by decide)) (StepsIn.done _)
  have h2 := h.2 1 h1
  omega

/-- C1, amended: for every pair of finite sequences `A` and `B` the function
returns a value, and that value is the minimum number of single-element
insertions and deletions (each costing 1, no substitution step) needed to
transform `A` into `B`. -/
theorem distance_is_min_insertions_deletions (A B : List α) :
    ∃ n, NeedlemanWunschDistance A B = some n ∧ IsMinSteps InsDelStep A B n :=
  ⟨indel A B, NeedlemanWunschDistance_eq A B, isMinSteps_indel A B⟩

/-- C2: for all finite sequences `A` and `B` the two argument orders return the
same value; when the lengths are equal the exchange of the operands is taken
for neither order, each call is the dynamic program run on its own arguments,
and the two runs agree. -/
theorem distance_symmetric (A B : List α) :
    (∃ n, NeedlemanWunschDistance A B = some n ∧ NeedlemanWunschDistance B A = some n) ∧
    (A.length = B.length →
      NeedlemanWunschDistance A B = dpBody A B ∧
      NeedlemanWunschDistance B A = dpBody B A ∧
      dpBody A B = dpBody B A) := by
  refine ⟨⟨indel A B, NeedlemanWunschDistance_eq A B, ?_⟩, ?_⟩
  · rw [NeedlemanWunschDistance_eq, indel_comm]
  · intro h
    refine ⟨?_, ?_, ?_⟩
    · rw [NeedlemanWunschDistance_unfold, if_neg (by omega)]
    · rw [NeedlemanWunschDistance_unfold, if_neg (by omega)]
    · rw [dpBody_eq, dpBody_eq, indel_comm]

/-- Witness for C2 on two sequences of equal length, `ab` and `bc`. -/
theorem distance_symmetric_witness :
    ['a', 'b'].length = ['b', 'c'].length ∧
      NeedlemanWunschDistance ['a', 'b'] ['b', 'c'] = dpBody ['a', 'b'] ['b', 'c'] ∧
      NeedlemanWunschDistance ['b', 'c'] ['a', 'b'] = dpBody ['b', 'c'] ['a', 'b'] ∧
      dpBody ['a', 'b'] ['b', 'c'] = dpBody ['b', 'c'] ['a', 'b'] :=
  ⟨rfl, (distance_symmetric ['a', 'b'] ['b', 'c']).2 rfl⟩

/-- C3: for every finite sequence `S` the distance of `S` to itself is 0. -/
theorem distance_self (S : List α) : NeedlemanWunschDistance S S = some 0 := by
  rw [NeedlemanWunschDistance_eq, indel_self]

/-- C4: for every finite sequence `A` the distance of `A` to the empty sequence
is the length of `A`, and for every finite sequence `B` the distance of the
empty sequence to `B` is the length of `B`. -/
theorem distance_empty (A B : List α) :
    NeedlemanWunschDistance A [] = some A.length ∧
      NeedlemanWunschDistance [] B = some B.length := by
  constructor
  · rw [NeedlemanWunschDistance_eq, indel_nil_right]
  · rw [NeedlemanWunschDistance_eq, indel_nil_left]

/-- C5: triangle inequality. For all finite sequences `A`, `B` and `C` the three
calls return values, and the distance of `A` to `C` is at most the distance of
`A` to `B` plus the distance of `B` to `C`. -/
theorem distance_triangle (A B C : List α) :
    ∃ ac ab bc, NeedlemanWunschDistance A C = some ac ∧
      NeedlemanWunschDistance A B = some ab ∧
      NeedlemanWunschDistance B C = some bc ∧ ac ≤ ab + bc :=
  ⟨indel A C, indel A B, indel B C, NeedlemanWunschDistance_eq A C,
    NeedlemanWunschDistance_eq A B, NeedlemanWunschDistance_eq B C, indel_triangle A B C⟩

/-- C6, as stated, fails: `cut` is obtained from `cat` by one edit, the
replacement of the element at one position by a different element, and the
distance returned is 2, not 1. -/
theorem single_edit_counterexample :
    EditStep ['c', 'a', 't'] ['c', 'u', 't'] ∧
      NeedlemanWunschDistance ['c', 'a', 't'] ['c', 'u', 't'] = some 2 ∧
      NeedlemanWunschDistance ['c', 'a', 't'] ['c', 'u', 't'] ≠ some 1 := by
  refine ⟨EditStep.substitute ['c'] ['t'] 'a' 'u' (by decide), ?_, ?_⟩
  · rw [NeedlemanWunschDistance_unfold]; decide
  · rw [NeedlemanWunschDistance_unfold]; decide

/-- C6, amended: for every finite sequence, inserting one element at any
position gives a sequence at distance 1, deleting one element at any position
gives a sequence at distance 1, and replacing the element at one position by a
different element gives a sequence at distance 2. -/
theorem single_edit_distance (l r : List α) (x y : α) :
    NeedlemanWunschDistance (l ++ r) (l ++ x :: r) = some 1 ∧
    NeedlemanWunschDistance (l ++ x :: r) (l ++ r) = some 1 ∧
    (x ≠ y → NeedlemanWunschDistance (l ++ x :: r) (l ++ y :: r) = some 2) := by
  refine ⟨?_, ?_, ?_⟩
  · rw [NeedlemanWunschDistance_eq, indel_insert]
  · rw [NeedlemanWunschDistance_eq, indel_delete]
  · intro h
    rw [NeedlemanWunschDistance_eq, indel_substitute l r x y h]

/-- Witness for C6 (amended) at `l = [m]`, `r = [p]`, `x = a`, `y = o`:
`mp` against `map`, `map` against `mp`, and `map` against `mop`. -/
theorem single_edit_distance_witness :
    'a' ≠ 'o' ∧
      NeedlemanWunschDistance (['m'] ++ ['p']) (['m'] ++ 'a' :: ['p']) = some 1 ∧
      NeedlemanWunschDistance (['m'] ++ 'a' :: ['p']) (['m'] ++ ['p']) = some 1 ∧
      NeedlemanWunschDistance (['m'] ++ 'a' :: ['p']) (['m'] ++ 'o' :: ['p']) = some 2 :=
  ⟨by decide, (single_edit_distance ['m'] ['p'] 'a' 'o').1,
    (single_edit_distance ['m'] ['p'] 'a' 'o').2.1,
    (single_edit_distance ['m'] ['p'] 'a' 'o').2.2 (by decide)⟩

/-- C7, as stated, fails: on `kitten` and `sitting` the function does not
return 3. -/
theorem kitten_sitting_counterexample :
    NeedlemanWunschDistance ['k', 'i', 't', 't', 'e', 'n']
      ['s', 'i', 't', 't', 'i', 'n', 'g'] ≠ some 3 := by
  rw [NeedlemanWunschDistance_unfold]; decide

/-- C7, amended: on `kitten` and `sitting` the function returns 5 (delete `k`,
insert `s`, delete `e`, insert `i`, insert `g`). -/
theorem kitten_sitting :
    NeedlemanWunschDistance ['k', 'i', 't', 't', 'e', 'n']
      ['s', 'i', 't', 't', 'i', 'n', 'g'] = some 5 := by
  rw [NeedlemanWunschDistance_unfold]; decide

/-- C8, as stated, fails: on `gumbo` and `gambol` the function does not
return 2. -/
theorem gumbo_gambol_counterexample :
    NeedlemanWunschDistance ['g', 'u', 'm', 'b', 'o']
      ['g', 'a', 'm', 'b', 'o', 'l'] ≠ some 2 := by
  rw [NeedlemanWunschDistance_unfold]; decide

/-- C8, amended: on `gumbo` and `gambol` the function returns 3 (delete `u`,
insert `a`, insert `l`). -/
theorem gumbo_gambol :
    NeedlemanWunschDistance ['g', 'u', 'm', 'b', 'o']
      ['g', 'a', 'm', 'b', 'o', 'l'] = some 3 := by
  rw [NeedlemanWunschDistance_unfold]; decide

/-- C9: on `flaw` and `lawn` the function returns 2. -/
theorem flaw_lawn :
    NeedlemanWunschDistance ['f', 'l', 'a', 'w'] ['l', 'a', 'w', 'n'] = some 2 := by
  rw [NeedlemanWunschDistance_unfold]; decide

/-- C10, as stated, fails: on `ab` and `cd` the value returned is 4, which
exceeds the larger of the two lengths, 2. -/
theorem max_length_bound_counterexample :
    ∃ n, NeedlemanWunschDistance ['a', 'b'] ['c', 'd'] = some n ∧
      ¬ n ≤ max ['a', 'b'].length ['c', 'd'].length := by
  refine ⟨4, by rw [NeedlemanWunschDistance_unfold]; decide, by decide⟩

/-- C10, amended: for all finite sequences `A` and `B` the function returns a
value that is at most `length A + length B`, so an integer type sized for
values up to the sum of the two lengths always holds the result. -/
theorem distance_le_sum_of_lengths (A B : List α) :
    ∃ n, NeedlemanWunschDistance A B = some n ∧ n ≤ A.length + B.length :=
  ⟨indel A B, NeedlemanWunschDistance_eq A B, indel_le_add A B⟩

/-! ## Safety, invariants and refinement -/

/-- C11: the function is total with no error path. Every read and write of a
row in the embedding returns `none` outside the row, and for every pair of
finite sequences the call returns a value, the one produced by the dynamic
program on the operands in the order the function runs them, so no access
leaves its row. -/
theorem distance_total (A B : List α) :
    ∃ n, NeedlemanWunschDistance A B = some n ∧
      dpBody (operands A B).1 (operands A B).2 = some n :=
  ⟨indel A B, NeedlemanWunschDistance_eq A B, by
    rw [← NeedlemanWunschDistance_operands, NeedlemanWunschDistance_eq]⟩

/-- C12, as stated, fails: for `L = a`, `S = b`, after one iteration of the
outer loop the entry `match[1]` is 2, while one substitution transforms the
first element of `L` into the first element of `S`. -/
theorem row_invariant_counterexample :
    ∃ m r v, rowsAfter ['a'] ['b'] 1 = some (m, r) ∧ Row.read m 1 = some v ∧
      ¬ IsMinSteps EditStep (['a'].take 1) (['b'].take 1) v := by
  refine ⟨[1, 2], [0, 1], 2, by decide, by decide, ?_⟩
  intro h
  have h1 : StepsIn EditStep 1 (['a'].take 1) (['b'].take 1) :=
    StepsIn.next (EditStep.substitute [] [] 'a' 'b' (by decide)) (StepsIn.done _)
  have h2 := h.2 1 h1
  omega

/-- C12, amended: for all finite sequences `L` and `S`, every `i` and every
`j` in `0..length S`, after `i` iterations of the outer loop the row `match`
has `length S + 1` entries and `match[j]` is the minimum number of insertions
and deletions that transform the first `i` elements of `L` into the first `j`
elements of `S`. -/
theorem row_invariant (L S : List α) (i j : Nat) (hj : j ≤ S.length) :
    ∃ m r v, rowsAfter L S i = some (m, r) ∧ m.length = S.length + 1 ∧
      Row.read m j = some v ∧ IsMinSteps InsDelStep (L.take i) (S.take j) v := by
  obtain ⟨r, _, hrows⟩ := rowsAfter_spec L S i
  refine ⟨rowOf (L.take i).reverse S, r, indel (L.take i) (S.take j), hrows,
    rowOf_length _ _, ?_, isMinSteps_indel _ _⟩
  unfold Row.read
  rw [List.get?_eq_getElem?, rowOf_get _ _ j hj, indel_reverse]

/-- Witness for C12 (amended) at `L = ab`, `S = b`, `i = 2`, `j = 1`. -/
theorem row_invariant_witness :
    1 ≤ ['b'].length ∧
      ∃ m r v, rowsAfter ['a', 'b'] ['b'] 2 = some (m, r) ∧ m.length = ['b'].length + 1 ∧
        Row.read m 1 = some v ∧
        IsMinSteps InsDelStep (['a', 'b'].take 2) (['b'].take 1) v :=
  ⟨by decide, row_invariant ['a', 'b'] ['b'] 2 1 (by decide)⟩

/-- C13: the two rolling rows compute the full-table recurrence. For all
finite sequences `L` and `S`, in particular when `length L ≥ length S`, the
dynamic program and the function both return `D(length L, length S)`. -/
theorem distance_eq_full_table (L S : List α) :
    dpBody L S = some (tableD L S L.length S.length) ∧
      NeedlemanWunschDistance L S = some (tableD L S L.length S.length) := by
  have h : tableD L S L.length S.length = indel L S := by
    rw [tableD_eq_indel L S _ _ (Nat.le_refl _) (Nat.le_refl _), List.take_length,
      List.take_length, indel_reverse]
  rw [h]
  exact ⟨dpBody_eq L S, NeedlemanWunschDistance_eq L S⟩

/-- C14: the exchange of the operands does not affect the result. For all
finite sequences `A` and `B`, the shorter first operand included, the dynamic
program run on `(A, B)` in the given order, with rows of `length B + 1`
entries, returns the value that `NeedlemanWunschDistance A B` returns. -/
theorem body_without_exchange (A B : List α) :
    ∃ n, dpBody A B = some n ∧ NeedlemanWunschDistance A B = some n :=
  ⟨indel A B, dpBody_eq A B, NeedlemanWunschDistance_eq A B⟩

/-- C15: for all finite sequences `A` and `B`, in the run of the function the
rows are allocated with `min (length A) (length B) + 1` entries, and after
every number of iterations of the outer loop both `match` and `roundMatch`
have exactly that many entries, whichever operand was passed first. -/
theorem row_lengths (A B : List α) (i : Nat) :
    (Row.alloc ((operands A B).2.length + 1)).length = min A.length B.length + 1 ∧
      ∃ m r, rowsAfter (operands A B).1 (operands A B).2 i = some (m, r) ∧
        m.length = min A.length B.length + 1 ∧
        r.length = min A.length B.length + 1 := by
  constructor
  · simp [Row.alloc, operands_snd_length]
  · obtain ⟨r, hr, hrows⟩ := rowsAfter_spec (operands A B).1 (operands A B).2 i
    refine ⟨_, r, hrows, ?_, ?_⟩
    · rw [rowOf_length, operands_snd_length]
    · rw [hr, operands_snd_length]

/-- C16: for all finite sequences `A` and `B` the value returned is
`length A + length B - 2 * LCS(A, B)`, where `LCS(A, B)` is the length of a
longest common subsequence, and it is the minimum number of single-element
insertions and deletions transforming `A` into `B`. -/
theorem distance_eq_lcs_formula (A B : List α) :
    ∃ n k, NeedlemanWunschDistance A B = some n ∧ IsLCSLength A B k ∧
      2 * k ≤ A.length + B.length ∧ n = A.length + B.length - 2 * k ∧
      IsMinSteps InsDelStep A B n := by
  obtain ⟨k, hk, hsum⟩ := isLCSLength_indel A B
  exact ⟨indel A B, k, NeedlemanWunschDistance_eq A B, hk, by omega, by omega,
    isMinSteps_indel A B⟩

/-- C17: identity of indiscernibles. For all finite sequences `A` and `B`, if
the function returns 0 then `A = B`. -/
theorem eq_of_distance_zero (A B : List α) (h : NeedlemanWunschDistance A B = some 0) :
    A = B := by
  rw [NeedlemanWunschDistance_eq] at h
  exact eq_of_indel_eq_zero A B (Option.some.inj h)

/-- Witness for C17 at `A = B = ab`. -/
theorem eq_of_distance_zero_witness :
    NeedlemanWunschDistance ['a', 'b'] ['a', 'b'] = some 0 ∧ ['a', 'b'] = ['a', 'b'] :=
  ⟨by rw [NeedlemanWunschDistance_unfold]; decide,
    eq_of_distance_zero ['a', 'b'] ['a', 'b'] (by rw [NeedlemanWunschDistance_unfold]; decide)⟩

/-- C18: for every finite sequence `A`, every position `p` with
`0 ≤ p ≤ length A` and every element `x`, the sequence obtained by inserting
`x` into `A` at position `p` has `x` at position `p`, and its distance to `A`
is 1 in both argument orders. -/
theorem insertion_distance (A : List α) (p : Nat) (x : α) (hp : p ≤ A.length) :
    (A.take p ++ x :: A.drop p).get? p = some x ∧
      NeedlemanWunschDistance A (A.take p ++ x :: A.drop p) = some 1 ∧
      NeedlemanWunschDistance (A.take p ++ x :: A.drop p) A = some 1 := by
  have h1 := indel_insert (A.take p) (A.drop p) x
  have h2 := indel_delete (A.take p) (A.drop p) x
  rw [List.take_append_drop] at h1 h2
  refine ⟨?_, ?_, ?_⟩
  · have hlen : (A.take p).length = p := by simp [hp]
    rw [List.get?_eq_getElem?, List.getElem?_append_right (by omega), hlen]
    simp
  · rw [NeedlemanWunschDistance_eq, h1]
  · rw [NeedlemanWunschDistance_eq, h2]

/-- Witness for C18 at `A = ct`, `p = 1`, `x = a`. -/
theorem insertion_distance_witness :
    1 ≤ ['c', 't'].length ∧
      (['c', 't'].take 1 ++ 'a' :: ['c', 't'].drop 1).get? 1 = some 'a' ∧
      NeedlemanWunschDistance ['c', 't'] (['c', 't'].take 1 ++ 'a' :: ['c', 't'].drop 1)
        = some 1 ∧
      NeedlemanWunschDistance (['c', 't'].take 1 ++ 'a' :: ['c', 't'].drop 1) ['c', 't']
        = some 1 :=
  ⟨by decide, insertion_distance ['c', 't'] 1 'a' (by decide)⟩

/-- C19: appending a common element leaves the distance unchanged. For all
finite sequences `A` and `B` and every element `x`, the calls on
`(A ++ [x], B ++ [x])` and on `(A, B)` return the same value. -/
theorem append_common_element (A B : List α) (x : α) :
    ∃ n, NeedlemanWunschDistance (A ++ [x]) (B ++ [x]) = some n ∧
      NeedlemanWunschDistance A B = some n :=
  ⟨indel A B, by rw [NeedlemanWunschDistance_eq, indel_append_same],
    NeedlemanWunschDistance_eq A B⟩

/-- C20: the self-recursion stops after at most one self-call. With room for
two nested activations or more the function returns its value; when
`length A < length B` it calls itself exactly once, with `(B, A)`, and the
guard is false in that call, which therefore completes with room for one
activation only; when `length A ≥ length B` it makes no self-call and
completes with room for one activation only. -/
theorem recursion_depth (A B : List α) (depth : Nat) :
    tracedDistance (depth + 2) A B =
        some (NeedlemanWunschDistance A B, if A.length < B.length then [(B, A)] else []) ∧
      (A.length < B.length →
        ¬ B.length < A.length ∧ tracedDistance 1 A B = none ∧
          tracedDistance 1 B A = some (dpBody B A, [])) ∧
      (B.length ≤ A.length → tracedDistance 1 A B = some (dpBody A B, [])) := by
  refine ⟨tracedDistance_succ_succ depth A B, ?_, tracedDistance_one A B⟩
  intro h
  refine ⟨Nat.lt_asymm h, ?_, tracedDistance_one B A (by omega)⟩
  simp [tracedDistance, h]

/-- Witness for C20 at `A = a`, `B = bc`, where the operands are exchanged. -/
theorem recursion_depth_witness :
    ['a'].length < ['b', 'c'].length ∧
      ¬ ['b', 'c'].length < ['a'].length ∧ tracedDistance 1 ['a'] ['b', 'c'] = none ∧
      tracedDistance 1 ['b', 'c'] ['a'] = some (dpBody ['b', 'c'] ['a'], []) :=
  ⟨by decide, (recursion_depth ['a'] ['b', 'c'] 0).2.1 (by decide)⟩

end NeedlemanWunsch
